import Mathlib

/-!
Formal model of the contact-book program (`task.py`): validated field
types (`Name`, `Phone`, `Birthday`), `Record`, `AddressBook`, and the
upcoming-birthday report `get_upcoming_birthdays`.

Calendar dates are modelled after Python's `datetime.date`: a triple of
year/month/day, valid when the year lies in 1..9999 and the day fits the
month (proleptic Gregorian).  Raising `ValueError` is modelled with
`Option`/`Except`.
-/

/-- A calendar date, as Python's `datetime.date` stores it. -/
structure Date where
  year : Nat
  month : Nat
  day : Nat
deriving DecidableEq

/-- Gregorian leap-year test, as `calendar.isleap` / `datetime` use it. -/
def isLeap (y : Nat) : Bool :=
  (y % 4 == 0 && y % 100 != 0) || (y % 400 == 0)

/-- Number of days in a month of a given year. -/
def daysInMonth (y m : Nat) : Nat :=
  if m = 2 then (if isLeap y then 29 else 28)
  else if m = 4 ∨ m = 6 ∨ m = 9 ∨ m = 11 then 30
  else 31

/-- The dates `datetime.date(y, m, d)` accepts (year 1..9999). -/
def ValidDate (d : Date) : Prop :=
  1 ≤ d.year ∧ d.year ≤ 9999 ∧ 1 ≤ d.month ∧ d.month ≤ 12 ∧
    1 ≤ d.day ∧ d.day ≤ daysInMonth d.year d.month

instance (d : Date) : Decidable (ValidDate d) := by
  unfold ValidDate; infer_instance

/-- Python compares dates lexicographically by (year, month, day). -/
def dateLtB (a b : Date) : Bool :=
  Nat.blt a.year b.year ||
    (a.year == b.year && (Nat.blt a.month b.month ||
      (a.month == b.month && Nat.blt a.day b.day)))

/-- Strict order on dates (`<` between Python `date` values). -/
def dateLt (a b : Date) : Prop := dateLtB a b = true

/-- Non-strict order on dates (`<=` between Python `date` values). -/
def dateLe (a b : Date) : Prop := dateLtB b a = false

instance (a b : Date) : Decidable (dateLt a b) := by
  unfold dateLt; infer_instance

instance (a b : Date) : Decidable (dateLe a b) := by
  unfold dateLe; infer_instance

/-- Day count of a date from the epoch 0000-03-01 of the proleptic
Gregorian calendar (the standard civil-from-days correspondence that
`datetime.date.toordinal` also realises, up to a constant shift). -/
def toN (d : Date) : Nat :=
  let y := if d.month ≤ 2 then d.year - 1 else d.year
  let mp := (d.month + 9) % 12
  let doy := (153 * mp + 2) / 5 + (d.day - 1)
  365 * y + y / 4 - y / 100 + y / 400 + doy

/-- Inverse of `toN`: date of a day count (epoch 0000-03-01). -/
def ofN (g : Nat) : Date :=
  let era := g / 146097
  let doe := g % 146097
  let yoe := (doe - doe / 1460 + doe / 36524 - doe / 146097) / 365
  let y := yoe + era * 400
  let doy := doe - (365 * yoe + yoe / 4 - yoe / 100)
  let mp := (5 * doy + 2) / 153
  let d := doy - (153 * mp + 2) / 5 + 1
  let m := if mp < 10 then mp + 3 else mp - 9
  if m ≤ 2 then ⟨y + 1, m, d⟩ else ⟨y, m, d⟩

/-- Weekday as Python's `date.weekday()`: Monday = 0 .. Sunday = 6. -/
def weekday (d : Date) : Nat := (toN d + 2) % 7

/-- Date shifted forward by `n` days (`d + timedelta(days=n)`), ignoring
the year-9999 ceiling. -/
def addDays (d : Date) (n : Nat) : Date := ofN (toN d + n)

/-- `d + timedelta(days=n)` as Python performs it: `none` models the
`OverflowError` past year 9999. -/
def timedeltaAdd (d : Date) (n : Nat) : Option Date :=
  let r := ofN (toN d + n)
  if r.year ≤ 9999 then some r else none

/-- `d.replace(year=y)`: rebuilds the date with the new year, `none`
modelling the `ValueError` when the result is not a valid date (e.g.
Feb 29 in a non-leap year, or a year outside 1..9999). -/
def replaceYear (d : Date) (y : Nat) : Option Date :=
  if 1 ≤ y ∧ y ≤ 9999 ∧ 1 ≤ d.month ∧ d.month ≤ 12 ∧
      1 ≤ d.day ∧ d.day ≤ daysInMonth y d.month
  then some ⟨y, d.month, d.day⟩ else none

/-! ### Characters and strings: `str.strip`, `str.isdigit`, formatting -/

/-- ASCII whitespace stripped by Python's `str.strip()`. -/
def isPySpace (c : Char) : Bool :=
  c.toNat == 32 || c.toNat == 9 || c.toNat == 10 ||
    c.toNat == 13 || c.toNat == 11 || c.toNat == 12

/-- Decimal-digit test (`str.isdigit` restricted to ASCII). -/
def isPyDigit (c : Char) : Bool := 48 ≤ c.toNat && c.toNat ≤ 57

/-- Numeric value of a decimal digit character. -/
def charVal (c : Char) : Nat := c.toNat - 48

/-- `str.strip()` on the underlying character list. -/
def stripList (l : List Char) : List Char :=
  ((l.dropWhile isPySpace).reverse.dropWhile isPySpace).reverse

/-- Python's `str.strip()`. -/
def pyStrip (s : String) : String := ⟨stripList s.data⟩

/-- Digits of `n` (< 100) zero-padded to width 2, as `%02d` / `%d`,
`%m` formatting renders day and month numbers. -/
def pad2L (n : Nat) : List Char :=
  [Nat.digitChar (n / 10 % 10), Nat.digitChar (n % 10)]

/-- Digits of `n` (< 10000) zero-padded to width 4, as `%Y` renders the
year. -/
def pad4L (n : Nat) : List Char :=
  [Nat.digitChar (n / 1000 % 10), Nat.digitChar (n / 100 % 10),
   Nat.digitChar (n / 10 % 10), Nat.digitChar (n % 10)]

/-- `d.strftime("%Y.%m.%d")`. -/
def fmtYMD (d : Date) : String :=
  ⟨pad4L d.year ++ '.' :: pad2L d.month ++ '.' :: pad2L d.day⟩

/-- `d.strftime("%d.%m.%Y")`. -/
def fmtDMY (d : Date) : String :=
  ⟨pad2L d.day ++ '.' :: pad2L d.month ++ '.' :: pad4L d.year⟩

/-! ### Field types -/

/-- `Phone.__init__`: strip the text, require exactly 10 digits; the
stored `value` is the stripped text.  `none` models the raised
`ValueError`. -/
def Phone_init (s : String) : Option String :=
  let v := pyStrip s
  if v.data.all isPyDigit && v.data.length == 10 then some v else none

/-- Digit string to number, most significant first. -/
def readNat (cs : List Char) : Nat :=
  cs.foldl (fun a c => a * 10 + charVal c) 0

/-- `datetime.date(y, m, d)` construction: `none` models `ValueError`. -/
def pyDateNew (y m d : Nat) : Option Date :=
  if 1 ≤ y ∧ y ≤ 9999 ∧ 1 ≤ m ∧ m ≤ 12 ∧ 1 ≤ d ∧ d ≤ daysInMonth y m
  then some ⟨y, m, d⟩ else none

/-- Field validation performed by `strptime`'s `%d.%m.%Y` once the text
has been split into day, month and year digit groups. -/
def parseParts (ds ms ys : List Char) : Option Date :=
  if ds.all isPyDigit && ms.all isPyDigit && ys.all isPyDigit then
    let d := readNat ds
    let m := readNat ms
    let y := readNat ys
    if 1 ≤ d ∧ d ≤ 31 ∧ 1 ≤ m ∧ m ≤ 12 then pyDateNew y m d else none
  else none

/-- `datetime.strptime(text, "%d.%m.%Y")` on the character list: day and
month are one or two digits, the year exactly four, separated by literal
dots, and the whole input must be consumed. -/
def parseDMYData : List Char → Option Date
  | [d1, d2, '.', m1, m2, '.', y1, y2, y3, y4] =>
      parseParts [d1, d2] [m1, m2] [y1, y2, y3, y4]
  | [d1, '.', m1, m2, '.', y1, y2, y3, y4] =>
      parseParts [d1] [m1, m2] [y1, y2, y3, y4]
  | [d1, d2, '.', m1, '.', y1, y2, y3, y4] =>
      parseParts [d1, d2] [m1] [y1, y2, y3, y4]
  | [d1, '.', m1, '.', y1, y2, y3, y4] =>
      parseParts [d1] [m1] [y1, y2, y3, y4]
  | _ => none

/-- `Birthday.__init__` on text input: strip, parse `%d.%m.%Y`, re-raise
any `ValueError` with the fixed message. -/
def Birthday_init (s : String) : Except String Date :=
  match parseDMYData (stripList s.data) with
  | some d => .ok d
  | none => .error "Invalid date format. Use DD.MM.YYYY"

/-! ### Record -/

/-- One contact (`Record`): validated name value, phone values in
insertion order, optional birthday date. -/
structure Record where
  name : String
  phones : List String
  birthday : Option Date
deriving DecidableEq

/-- `Record.edit_phone` acting on the phone-value list: scan for the
first phone equal to `old`; on a match build `Phone(new)` and assign in
place.  The returned list is the state of `self.phones` when the method
finishes (also when it raises: the assignment never ran, so the list is
untouched); `Except.error` models the propagated `ValueError`,
`Except.ok` the boolean return. -/
def editPhones (phones : List String) (old new : String) :
    List String × Except Unit Bool :=
  match phones with
  | [] => ([], .ok false)
  | p :: ps =>
    if p = old then
      match Phone_init new with
      | some v => (v :: ps, .ok true)
      | none => (p :: ps, .error ())
    else
      let r := editPhones ps old new
      (p :: r.1, r.2)

/-- `Record.edit_phone`: the record afterwards, and the outcome. -/
def Record.edit_phone (r : Record) (old new : String) :
    Record × Except Unit Bool :=
  let e := editPhones r.phones old new
  ({ r with phones := e.1 }, e.2)

/-! ### AddressBook -/

/-- The `AddressBook` mapping: a `dict` from name string to `Record`,
in insertion order. -/
abbrev AddressBook := List (String × Record)

/-- `self.data.values()`. -/
def values (book : AddressBook) : List Record := book.map Prod.snd

/-- Python `dict` assignment `d[k] = v`: overwrite in place when the key
exists, else append. -/
def dictSet (book : AddressBook) (k : String) (v : Record) : AddressBook :=
  match book with
  | [] => [(k, v)]
  | (k', v') :: rest =>
    if k' = k then (k, v) :: rest else (k', v') :: dictSet rest k v

/-- `AddressBook.add_record`: `self.data[record.name.value] = record`. -/
def add_record (book : AddressBook) (r : Record) : AddressBook :=
  dictSet book r.name r

/-- `AddressBook.find`: `self.data.get(name)`. -/
def find (book : AddressBook) (name : String) : Option Record :=
  match book with
  | [] => none
  | (k, v) :: rest => if k = name then some v else find rest name

/-- `name in self.data`. -/
def containsKey (book : AddressBook) (name : String) : Bool :=
  match book with
  | [] => false
  | (k, _) :: rest => if k = name then true else containsKey rest name

/-- `del self.data[name]` (the key is present). -/
def eraseKey (book : AddressBook) (name : String) : AddressBook :=
  match book with
  | [] => []
  | (k, v) :: rest =>
    if k = name then rest else (k, v) :: eraseKey rest name

/-- `AddressBook.delete`: delete the entry only when the key exists. -/
def delete (book : AddressBook) (name : String) : AddressBook :=
  if containsKey book name then eraseKey book name else book

/-! ### get_upcoming_birthdays -/

/-- The candidate date of the loop body: `bd.replace(year=today.year)`,
recomputed with `today.year + 1` when it falls before `today`; `none`
models a raised `ValueError`. -/
def candidateOf (today bd : Date) : Option Date :=
  match replaceYear bd today.year with
  | none => none
  | some c => if dateLt c today then replaceYear bd (today.year + 1) else some c

/-- The weekend adjustment: Saturday slides 2 days, Sunday 1 day, to the
following Monday. -/
def congrShift (c : Date) : Date :=
  if weekday c = 5 then addDays c 2
  else if weekday c = 6 then addDays c 1
  else c

/-- One output row: contact name and formatted congratulation date. -/
abbrev Entry := String × String

/-- The result rows of the loop of `get_upcoming_birthdays`, in record
order, before sorting; `Except.error` models a `ValueError` escaping the
loop. -/
def collectUpcoming (today endDay : Date) :
    List Record → Except String (List Entry)
  | [] => .ok []
  | r :: rs =>
    match r.birthday with
    | none => collectUpcoming today endDay rs
    | some bd =>
      match candidateOf today bd with
      | none => .error "day is out of range for month"
      | some c =>
        if dateLe today c ∧ dateLe c endDay then
          match collectUpcoming today endDay rs with
          | .error e => .error e
          | .ok l => .ok ((r.name, fmtYMD (congrShift c)) :: l)
        else collectUpcoming today endDay rs

/-- Sort key order of `result.sort(key=...)`: by the formatted
congratulation-date string (code-point comparison). -/
def charListLtB : List Char → List Char → Bool
  | [], [] => false
  | [], _ :: _ => true
  | _ :: _, [] => false
  | a :: as, b :: bs =>
    if a.toNat < b.toNat then true
    else if b.toNat < a.toNat then false
    else charListLtB as bs

/-- Lexicographic string comparison by code point, as Python `<`. -/
def strLtB (s t : String) : Bool := charListLtB s.data t.data

/-- Row order used by the final sort: non-decreasing congratulation-date
string. -/
def entryLe (a b : Entry) : Prop := strLtB b.2 a.2 = false

instance : DecidableRel entryLe := by
  unfold entryLe; infer_instance

/-- `AddressBook.get_upcoming_birthdays`: `today` made explicit
(`date.today()` in the source), `days_ahead` defaulting to 7. -/
def get_upcoming_birthdays (book : AddressBook) (today : Date)
    (days_ahead : Nat := 7) : Except String (List Entry) :=
  match timedeltaAdd today days_ahead with
  | none => .error "date value out of range"
  | some endDay =>
    match collectUpcoming today endDay (values book) with
    | .error e => .error e
    | .ok l => .ok (List.insertionSort entryLe l)

/-- The candidate date exactly as the specification words it: the
birthday with its year replaced by the current year, or by the next year
when that date precedes today.  Stated from the spec, to be compared
with `candidateOf` from the source. -/
def claimCandidate (today bd : Date) : Date :=
  if dateLt ⟨today.year, bd.month, bd.day⟩ today
  then ⟨today.year + 1, bd.month, bd.day⟩
  else ⟨today.year, bd.month, bd.day⟩

/-! ### Invariant and operation model for the AddressBook -/

/-- An operation of the `AddressBook` interface named by the invariant
claim. -/
inductive BookOp where
  | addRecord (r : Record)
  | find (k : String)
  | delete (k : String)
deriving DecidableEq

/-- Effect of one operation on the mapping (`find` reads only). -/
def applyOp (book : AddressBook) : BookOp → AddressBook
  | .addRecord r => add_record book r
  | .find _ => book
  | .delete k => delete book k

/-- Effect of a sequence of operations. -/
def applyOps (book : AddressBook) (ops : List BookOp) : AddressBook :=
  ops.foldl applyOp book

/-- The AddressBook invariant: every key equals the name value of its
record, and keys are unique. -/
def BookInv (book : AddressBook) : Prop :=
  (∀ p ∈ book, p.1 = p.2.name) ∧ (book.map Prod.fst).Nodup

instance (book : AddressBook) : Decidable (BookInv book) := by
  unfold BookInv; infer_instance

/-- The ten-decimal-digit shape of the regular expression `^\d{10}$`. -/
def matchesTenDigits (s : String) : Prop :=
  s.data.length = 10 ∧ ∀ c ∈ s.data, isPyDigit c = true

instance (s : String) : Decidable (matchesTenDigits s) := by
  unfold matchesTenDigits; infer_instance

lemma isPySpace_of_isPyDigit {c : Char} (h : isPyDigit c = true) :
    isPySpace c = false := by
  simp only [isPyDigit, Bool.and_eq_true, decide_eq_true_eq] at h
  simp only [isPySpace, Bool.or_eq_false_iff, beq_eq_false_iff_ne, ne_eq]
  omega

lemma dropWhile_eq_self_of_all {p : Char → Bool} {l : List Char}
    (h : ∀ c ∈ l, p c = false) : l.dropWhile p = l := by
  cases l with
  | nil => rfl
  | cons a as => rw [List.dropWhile_cons, h a (List.mem_cons_self a as)]; simp

lemma stripList_eq_self {l : List Char} (h : ∀ c ∈ l, isPySpace c = false) :
    stripList l = l := by
  unfold stripList
  rw [dropWhile_eq_self_of_all h,
    dropWhile_eq_self_of_all (fun c hc => h c (List.mem_reverse.mp hc)),
    List.reverse_reverse]

lemma pyStrip_of_matchesTenDigits {s : String} (h : matchesTenDigits s) :
    pyStrip s = s := by
  obtain ⟨-, hdig⟩ := h
  unfold pyStrip
  rw [stripList_eq_self (fun c hc => isPySpace_of_isPyDigit (hdig c hc))]

lemma Phone_init_of_strip_matches {s t : String} (ht : pyStrip s = t)
    (h : matchesTenDigits t) : Phone_init s = some t := by
  obtain ⟨hlen, hdig⟩ := h
  have hc : (t.data.all isPyDigit && t.data.length == 10) = true := by
    simp only [Bool.and_eq_true, List.all_eq_true, beq_iff_eq]
    exact ⟨hdig, hlen⟩
  simp only [Phone_init, ht, hc, if_true]

/-- Claim C4 (amended): `Phone` strips surrounding whitespace before
validating; it succeeds exactly when the stripped text is ten decimal
digits, storing the stripped text (so a ten-digit string is stored
verbatim, while whitespace-padded ten-digit strings are accepted rather
than rejected). -/
theorem phone_strip_spec (s : String) :
    (matchesTenDigits s → Phone_init s = some s) ∧
    (matchesTenDigits (pyStrip s) → Phone_init s = some (pyStrip s)) ∧
    (¬ matchesTenDigits (pyStrip s) → Phone_init s = none) := by
  refine ⟨?_, ?_, ?_⟩
  · intro h
    exact Phone_init_of_strip_matches (pyStrip_of_matchesTenDigits h) h
  · intro h
    exact Phone_init_of_strip_matches rfl h
  · intro h
    by_cases hc : ((pyStrip s).data.all isPyDigit && (pyStrip s).data.length == 10) = true
    · exfalso
      apply h
      simp only [Bool.and_eq_true, List.all_eq_true, beq_iff_eq] at hc
      exact ⟨hc.2, hc.1⟩
    · simp only [Phone_init]
      rw [if_neg hc]

/-- Claim C4 witness: a ten-digit string is accepted and stored
verbatim. -/
theorem phone_strip_spec_witness : Phone_init "0123456789" = some "0123456789" :=
  (phone_strip_spec "0123456789").1 (by decide)

/-- Claim C4 counterexample: a string that does not match `^\d{10}$`
(leading space) for which `Phone` construction nevertheless succeeds. -/
theorem phone_whitespace_counterexample :
    Phone_init " 1234567890" = some "1234567890" ∧
      ¬ matchesTenDigits " 1234567890" := by
  constructor
  · rfl
  · decide

/-! ### Claim C5: edit_phone -/

lemma editPhones_not_mem : ∀ {phones : List String} {old new : String},
    old ∉ phones → editPhones phones old new = (phones, .ok false) := by
  intro phones
  induction phones with
  | nil => intro old new h; rfl
  | cons p ps ih =>
    intro old new h
    have hp : ¬ p = old := fun e => h (e ▸ List.mem_cons_self p ps)
    simp only [editPhones, if_neg hp,
      ih (fun hm => h (List.mem_cons_of_mem _ hm))]

lemma editPhones_mem_invalid : ∀ {phones : List String} {old new : String},
    old ∈ phones → Phone_init new = none →
    editPhones phones old new = (phones, .error ()) := by
  intro phones
  induction phones with
  | nil => intro old new h _; exact absurd h (List.not_mem_nil old)
  | cons p ps ih =>
    intro old new h hnew
    by_cases hp : p = old
    · simp only [editPhones, if_pos hp, hnew]
    · have hmem : old ∈ ps := by
        rcases List.mem_cons.mp h with h1 | h1
        · exact absurd h1.symm hp
        · exact h1
      simp only [editPhones, if_neg hp, ih hmem hnew]

lemma editPhones_mem_valid : ∀ {phones : List String} {old new v : String},
    old ∈ phones → Phone_init new = some v →
    editPhones phones old new =
      (phones.set (phones.findIdx (· == old)) v, .ok true) := by
  intro phones
  induction phones with
  | nil => intro old new v h _; exact absurd h (List.not_mem_nil old)
  | cons p ps ih =>
    intro old new v h hnew
    by_cases hp : p = old
    · have hb : (p == old) = true := beq_iff_eq.mpr hp
      simp only [editPhones, if_pos hp, hnew, List.findIdx_cons, hb, cond_true,
        List.set_cons_zero]
    · have hmem : old ∈ ps := by
        rcases List.mem_cons.mp h with h1 | h1
        · exact absurd h1.symm hp
        · exact h1
      have hb : (p == old) = false := beq_eq_false_iff_ne.mpr hp
      simp only [editPhones, if_neg hp, ih hmem hnew, List.findIdx_cons, hb,
        cond_false, List.set_cons_succ]

/-- Claim C5: `edit_phone` replaces the first phone equal to `oldText`
in place (same position) by the validated `Phone(newText)` and reports
whether a match was found; an invalid `newText` makes the error
propagate with the phone list untouched, and a missing `oldText` returns
the not-found result with the phone list untouched. -/
theorem edit_phone_spec (r : Record) (old new : String) :
    (old ∉ r.phones → Record.edit_phone r old new = (r, .ok false)) ∧
    (old ∈ r.phones → Phone_init new = none →
      Record.edit_phone r old new = (r, .error ())) ∧
    (∀ v, old ∈ r.phones → Phone_init new = some v →
      Record.edit_phone r old new =
        ({ r with phones := r.phones.set (r.phones.findIdx (· == old)) v },
          .ok true)) := by
  obtain ⟨nm, ph, bd⟩ := r
  refine ⟨?_, ?_, ?_⟩
  · intro h
    simp only [Record.edit_phone, editPhones_not_mem h]
  · intro h hnew
    simp only [Record.edit_phone, editPhones_mem_invalid h hnew]
  · intro v h hnew
    simp only [Record.edit_phone, editPhones_mem_valid h hnew]

/-- Claim C5 witness: replacing the second of two phones by a valid new
number succeeds in place. -/
theorem edit_phone_spec_witness :
    Record.edit_phone ⟨"Bob", ["1112223334", "5556667778"], none⟩
        "5556667778" "9998887776" =
      (⟨"Bob", ["1112223334", "9998887776"], none⟩, .ok true) :=
  (edit_phone_spec ⟨"Bob", ["1112223334", "5556667778"], none⟩
    "5556667778" "9998887776").2.2 "9998887776" (by decide) rfl

/-! ### Claim C9: delete is exact -/

lemma eraseKey_length : ∀ {book : AddressBook} {name : String},
    containsKey book name = true →
    (eraseKey book name).length + 1 = book.length := by
  intro book
  induction book with
  | nil => intro name h; simp [containsKey] at h
  | cons p rest ih =>
    intro name h
    obtain ⟨k, v⟩ := p
    by_cases hk : k = name
    · simp [eraseKey, hk]
    · have hrest : containsKey rest name = true := by
        simpa [containsKey, hk] using h
      simp [eraseKey, hk, ih hrest]

lemma eraseKey_eq_filter : ∀ {book : AddressBook} {name : String},
    (book.map Prod.fst).Nodup → containsKey book name = true →
    eraseKey book name = book.filter (fun p => !(p.1 == name)) := by
  intro book
  induction book with
  | nil => intro name _ h; simp [containsKey] at h
  | cons p rest ih =>
    intro name hnd h
    obtain ⟨k, v⟩ := p
    rw [List.map_cons, List.nodup_cons] at hnd
    by_cases hk : k = name
    · have hfix : rest.filter (fun p => !(p.1 == name)) = rest := by
        apply List.filter_eq_self.mpr
        intro q hq
        have : q.1 ∈ rest.map Prod.fst := List.mem_map_of_mem Prod.fst hq
        have hne : q.1 ≠ name := fun e => hnd.1 (by rwa [hk, ← e])
        simpa using hne
      simp [eraseKey, List.filter_cons, hk, hfix]
    · have hrest : containsKey rest name = true := by
        simpa [containsKey, hk] using h
      have hne : (k == name) = false := beq_eq_false_iff_ne.mpr hk
      simp [eraseKey, List.filter_cons, hk, hne, ih hnd.2 hrest]

/-- Claim C9: deleting an absent name leaves the book unchanged, while
deleting a present name removes exactly that entry (the other entries
survive, in order, untouched, and the size drops by one). -/
theorem delete_frame_spec (book : AddressBook) (name : String)
    (hinv : BookInv book) :
    (containsKey book name = false → delete book name = book) ∧
    (containsKey book name = true →
      delete book name = book.filter (fun p => !(p.1 == name)) ∧
      (delete book name).length + 1 = book.length) := by
  constructor
  · intro h
    simp [delete, h]
  · intro h
    have hdel : delete book name = eraseKey book name := by simp [delete, h]
    rw [hdel]
    exact ⟨eraseKey_eq_filter hinv.2 h, eraseKey_length h⟩

/-- Claim C9 witness: deleting a missing name is a no-op, deleting a
present one removes exactly its entry. -/
theorem delete_frame_spec_witness :
    delete [("Ann", ⟨"Ann", [], none⟩)] "Bob" = [("Ann", ⟨"Ann", [], none⟩)] ∧
    delete [("Ann", ⟨"Ann", [], none⟩), ("Bob", ⟨"Bob", [], none⟩)] "Bob" =
      [("Ann", ⟨"Ann", [], none⟩)] := by
  constructor
  · exact (delete_frame_spec [("Ann", ⟨"Ann", [], none⟩)] "Bob"
      (by decide)).1 (by decide)
  · exact ((delete_frame_spec
      [("Ann", ⟨"Ann", [], none⟩), ("Bob", ⟨"Bob", [], none⟩)] "Bob"
      (by decide)).2 (by decide)).1

/-! ### Claim C8: the key/name invariant -/

lemma mem_dictSet : ∀ {book : AddressBook} {k : String} {v : Record}
    {p : String × Record}, p ∈ dictSet book k v → p = (k, v) ∨ p ∈ book := by
  intro book
  induction book with
  | nil =>
    intro k v p hp
    simp only [dictSet] at hp
    exact Or.inl (List.mem_singleton.mp hp)
  | cons q rest ih =>
    intro k v p hp
    obtain ⟨k', v'⟩ := q
    by_cases hk : k' = k
    · simp only [dictSet, if_pos hk] at hp
      rcases List.mem_cons.mp hp with h1 | h1
      · exact Or.inl h1
      · exact Or.inr (List.mem_cons_of_mem _ h1)
    · simp only [dictSet, if_neg hk] at hp
      rcases List.mem_cons.mp hp with h1 | h1
      · exact Or.inr (h1 ▸ List.mem_cons_self _ _)
      · rcases ih h1 with h2 | h2
        · exact Or.inl h2
        · exact Or.inr (List.mem_cons_of_mem _ h2)

lemma mem_keys_dictSet {book : AddressBook} {k : String} {v : Record}
    {a : String} (h : a ∈ (dictSet book k v).map Prod.fst) :
    a = k ∨ a ∈ book.map Prod.fst := by
  rcases List.mem_map.mp h with ⟨p, hp, hpa⟩
  rcases mem_dictSet hp with h1 | h1
  · left; rw [← hpa, h1]
  · right; exact hpa ▸ List.mem_map_of_mem Prod.fst h1

lemma nodup_keys_dictSet : ∀ {book : AddressBook} {k : String} {v : Record},
    (book.map Prod.fst).Nodup → ((dictSet book k v).map Prod.fst).Nodup := by
  intro book
  induction book with
  | nil => intro k v _; simp [dictSet]
  | cons q rest ih =>
    intro k v hnd
    obtain ⟨k', v'⟩ := q
    rw [List.map_cons, List.nodup_cons] at hnd
    by_cases hk : k' = k
    · simp only [dictSet, if_pos hk, List.map_cons, List.nodup_cons]
      exact ⟨hk ▸ hnd.1, hnd.2⟩
    · simp only [dictSet, if_neg hk, List.map_cons, List.nodup_cons]
      refine ⟨fun hmem => ?_, ih hnd.2⟩
      rcases mem_keys_dictSet hmem with h1 | h1
      · exact hk h1
      · exact hnd.1 h1

lemma bookInv_add_record {book : AddressBook} (h : BookInv book)
    (r : Record) : BookInv (add_record book r) := by
  constructor
  · intro p hp
    rcases mem_dictSet hp with h1 | h1
    · rw [h1]
    · exact h.1 p h1
  · exact nodup_keys_dictSet h.2

lemma eraseKey_sublist : ∀ (book : AddressBook) (name : String),
    List.Sublist (eraseKey book name) book := by
  intro book
  induction book with
  | nil => intro name; exact List.Sublist.refl []
  | cons p rest ih =>
    intro name
    obtain ⟨k, v⟩ := p
    by_cases hk : k = name
    · simp only [eraseKey, if_pos hk]
      exact (List.Sublist.refl rest).cons (k, v)
    · simpa [eraseKey, hk] using List.Sublist.cons₂ (k, v) (ih name)

lemma bookInv_delete {book : AddressBook} (h : BookInv book)
    (name : String) : BookInv (delete book name) := by
  unfold delete
  split
  · have hs := eraseKey_sublist book name
    exact ⟨fun p hp => h.1 p (hs.subset hp), h.2.sublist (hs.map Prod.fst)⟩
  · exact h

/-- Claim C8: starting from any book satisfying the invariant (the empty
book in particular), any sequence of `add_record`, `find` and `delete`
operations keeps every key equal to its record's name value, with one
record per name. -/
theorem addressbook_invariant_preserved (ops : List BookOp)
    (book : AddressBook) (h : BookInv book) : BookInv (applyOps book ops) := by
  induction ops generalizing book with
  | nil => exact h
  | cons op ops ih =>
    have hstep : BookInv (applyOp book op) := by
      cases op with
      | addRecord r => exact bookInv_add_record h r
      | find k => exact h
      | delete k => exact bookInv_delete h k
    simpa [applyOps, List.foldl_cons] using ih (applyOp book op) hstep

/-- Claim C8 witness: a concrete operation sequence from the empty book
keeps the invariant. -/
theorem addressbook_invariant_preserved_witness :
    BookInv (applyOps []
      [BookOp.addRecord ⟨"Ann", ["1234567890"], none⟩,
       BookOp.addRecord ⟨"Bob", [], none⟩,
       BookOp.find "Ann",
       BookOp.delete "Bob",
       BookOp.addRecord ⟨"Ann", [], some ⟨1990, 1, 2⟩⟩]) :=
  addressbook_invariant_preserved _ [] (by decide)

/-! ### Claim C10: the window test precedes the weekend shift -/

/-- Claim C10: membership in the window is decided on the unshifted
candidate, so a candidate equal to the window end that falls on a
Saturday is included with a congratulation date two days past the
window: with today = 2024-06-08 and the default 7-day lookahead, the
window ends 2024-06-15 (a Saturday), a June-15 birthday is included, and
the reported date 2024-06-17 lies outside the window. -/
theorem upcoming_shift_exits_window :
    get_upcoming_birthdays [("A", ⟨"A", [], some ⟨1990, 6, 15⟩⟩)]
        ⟨2024, 6, 8⟩ 7 = .ok [("A", "2024.06.17")] ∧
    timedeltaAdd ⟨2024, 6, 8⟩ 7 = some ⟨2024, 6, 15⟩ ∧
    candidateOf ⟨2024, 6, 8⟩ ⟨1990, 6, 15⟩ = some ⟨2024, 6, 15⟩ ∧
    dateLe ⟨2024, 6, 8⟩ ⟨2024, 6, 15⟩ ∧ dateLe ⟨2024, 6, 15⟩ ⟨2024, 6, 15⟩ ∧
    weekday ⟨2024, 6, 15⟩ = 5 ∧
    congrShift ⟨2024, 6, 15⟩ = ⟨2024, 6, 17⟩ ∧
    ¬ dateLe ⟨2024, 6, 17⟩ ⟨2024, 6, 15⟩ := by
  refine ⟨rfl, rfl, rfl, rfl, rfl, rfl, rfl, ?_⟩
  decide

/-! ### The candidate date of the birthday loop -/

lemma candidateOf_eq_claim {today bd c : Date}
    (h : candidateOf today bd = some c) : c = claimCandidate today bd := by
  unfold candidateOf at h
  cases hrep : replaceYear bd today.year with
  | none =>
    simp only [hrep] at h
    exact Option.noConfusion h
  | some c1 =>
    simp only [hrep] at h
    unfold replaceYear at hrep
    split at hrep
    · injection hrep with hrep
      by_cases hlt : dateLt c1 today
      · rw [if_pos hlt] at h
        unfold replaceYear at h
        split at h
        · injection h with h
          unfold claimCandidate
          rw [if_pos (by rw [hrep]; exact hlt)]
          exact h.symm
        · exact Option.noConfusion h
      · rw [if_neg hlt] at h
        injection h with h
        unfold claimCandidate
        rw [if_neg (by rw [hrep]; exact hlt)]
        rw [← h, ← hrep]
    · exact Option.noConfusion hrep

lemma candidateOf_feb29_none (today : Date) {bd : Date}
    (hm : bd.month = 2) (hd : bd.day = 29)
    (hy : isLeap today.year = false ∨
      (dateLt ⟨today.year, 2, 29⟩ today ∧ isLeap (today.year + 1) = false)) :
    candidateOf today bd = none := by
  obtain ⟨B, M, D⟩ := bd
  simp only at hm hd
  subst hm
  subst hd
  rcases hy with hy | ⟨hlt, hy1⟩
  · have hfail : replaceYear ⟨B, 2, 29⟩ today.year = none := by
      simp [replaceYear, daysInMonth, hy]
    simp [candidateOf, hfail]
  · cases hrep : replaceYear ⟨B, 2, 29⟩ today.year with
    | none => simp [candidateOf, hrep]
    | some c1 =>
      have hc1 : c1 = ⟨today.year, 2, 29⟩ := by
        unfold replaceYear at hrep
        split at hrep
        · exact (Option.some.inj hrep).symm
        · exact Option.noConfusion hrep
      simp only [candidateOf, hrep]
      rw [hc1, if_pos hlt]
      simp [replaceYear, daysInMonth, hy1]

/-! ### Characterising the loop of get_upcoming_birthdays -/

lemma collect_ok_candidate {today endDay : Date} :
    ∀ (rs : List Record) (l : List Entry),
    collectUpcoming today endDay rs = .ok l →
    ∀ r ∈ rs, ∀ bd, r.birthday = some bd →
    ∃ c, candidateOf today bd = some c := by
  intro rs
  induction rs with
  | nil => intro l _ r hr; exact absurd hr (List.not_mem_nil r)
  | cons a as ih =>
    intro l h r hr bd hbd
    simp only [collectUpcoming] at h
    rcases List.mem_cons.mp hr with h1 | h1
    · subst h1
      rw [hbd] at h
      cases hc : candidateOf today bd with
      | none =>
        simp only [hc] at h
        exact Except.noConfusion h
      | some c => exact ⟨c, rfl⟩
    · cases hab : a.birthday with
      | none =>
        simp only [hab] at h
        exact ih l h r h1 bd hbd
      | some abd =>
        cases hc : candidateOf today abd with
        | none =>
          simp only [hab, hc] at h
          exact Except.noConfusion h
        | some c =>
          simp only [hab, hc] at h
          by_cases hw : dateLe today c ∧ dateLe c endDay
          · rw [if_pos hw] at h
            cases hcol : collectUpcoming today endDay as with
            | error e =>
              simp only [hcol] at h
              exact Except.noConfusion h
            | ok l2 => exact ih l2 hcol r h1 bd hbd
          · rw [if_neg hw] at h
            exact ih l h r h1 bd hbd

lemma collect_mem_iff {today endDay : Date} :
    ∀ (rs : List Record) (l : List Entry),
    collectUpcoming today endDay rs = .ok l →
    ∀ e : Entry, (e ∈ l ↔ ∃ r ∈ rs, ∃ bd, r.birthday = some bd ∧
      ∃ c, candidateOf today bd = some c ∧ dateLe today c ∧ dateLe c endDay ∧
        e = (r.name, fmtYMD (congrShift c))) := by
  intro rs
  induction rs with
  | nil =>
    intro l h e
    simp only [collectUpcoming] at h
    injection h with h
    subst h
    simp
  | cons a as ih =>
    intro l h e
    simp only [collectUpcoming] at h
    cases hab : a.birthday with
    | none =>
      simp only [hab] at h
      rw [ih l h e]
      constructor
      · rintro ⟨r, hr, rest⟩
        exact ⟨r, List.mem_cons_of_mem a hr, rest⟩
      · rintro ⟨r, hr, bd, hbd, rest⟩
        rcases List.mem_cons.mp hr with h1 | h1
        · subst h1
          rw [hab] at hbd
          exact Option.noConfusion hbd
        · exact ⟨r, h1, bd, hbd, rest⟩
    | some bd0 =>
      cases hc : candidateOf today bd0 with
      | none =>
        simp only [hab, hc] at h
        exact Except.noConfusion h
      | some c0 =>
        simp only [hab, hc] at h
        by_cases hw : dateLe today c0 ∧ dateLe c0 endDay
        · rw [if_pos hw] at h
          cases hcol : collectUpcoming today endDay as with
          | error e2 =>
            simp only [hcol] at h
            exact Except.noConfusion h
          | ok l2 =>
            simp only [hcol] at h
            injection h with h
            subst h
            rw [List.mem_cons, ih l2 hcol e]
            constructor
            · rintro (he | ⟨r, hr, rest⟩)
              · exact ⟨a, List.mem_cons_self a as, bd0, hab, c0, hc,
                  hw.1, hw.2, he⟩
              · exact ⟨r, List.mem_cons_of_mem a hr, rest⟩
            · rintro ⟨r, hr, bd, hbd, c, hcand, h1, h2, he⟩
              rcases List.mem_cons.mp hr with hra | hra
              · subst hra
                rw [hab] at hbd
                injection hbd with hbd
                subst hbd
                rw [hc] at hcand
                injection hcand with hcand
                subst hcand
                exact Or.inl he
              · exact Or.inr ⟨r, hra, bd, hbd, c, hcand, h1, h2, he⟩
        · rw [if_neg hw] at h
          rw [ih l h e]
          constructor
          · rintro ⟨r, hr, rest⟩
            exact ⟨r, List.mem_cons_of_mem a hr, rest⟩
          · rintro ⟨r, hr, bd, hbd, c, hcand, h1, h2, he⟩
            rcases List.mem_cons.mp hr with hra | hra
            · subst hra
              rw [hab] at hbd
              injection hbd with hbd
              subst hbd
              rw [hc] at hcand
              injection hcand with hcand
              subst hcand
              exact absurd ⟨h1, h2⟩ hw
            · exact ⟨r, hra, bd, hbd, c, hcand, h1, h2, he⟩

/-! ### Claim C3: February 29 makes the query raise -/

/-- Claim C3: when some record's birthday is Feb 29 and the substituted
year (the current year, or the next one when the current-year candidate
precedes today) is not a leap year, `get_upcoming_birthdays` propagates
the invalid-date error instead of skipping or including the record. -/
theorem upcoming_feb29_raises (book : AddressBook) (today : Date) (n : Nat)
    (r : Record) (bd : Date) (hr : r ∈ values book)
    (hbd : r.birthday = some bd) (hm : bd.month = 2) (hd : bd.day = 29)
    (hy : isLeap today.year = false ∨
      (dateLt ⟨today.year, 2, 29⟩ today ∧ isLeap (today.year + 1) = false)) :
    ∃ msg, get_upcoming_birthdays book today n = .error msg := by
  cases hadd : timedeltaAdd today n with
  | none =>
    exact ⟨"date value out of range", by simp only [get_upcoming_birthdays, hadd]⟩
  | some endDay =>
    cases hcol : collectUpcoming today endDay (values book) with
    | error e =>
      exact ⟨e, by simp only [get_upcoming_birthdays, hadd, hcol]⟩
    | ok l =>
      exfalso
      obtain ⟨c, hc⟩ := collect_ok_candidate (values book) l hcol r hr bd hbd
      rw [candidateOf_feb29_none today hm hd hy] at hc
      exact Option.noConfusion hc

/-- Claim C3 witness: a Feb-29 birthday with a non-leap current year
(2025) makes the query fail. -/
theorem upcoming_feb29_raises_witness :
    ∃ msg, get_upcoming_birthdays [("L", ⟨"L", [], some ⟨2000, 2, 29⟩⟩)]
      ⟨2025, 5, 1⟩ 7 = .error msg :=
  upcoming_feb29_raises [("L", ⟨"L", [], some ⟨2000, 2, 29⟩⟩)] ⟨2025, 5, 1⟩ 7
    ⟨"L", [], some ⟨2000, 2, 29⟩⟩ ⟨2000, 2, 29⟩ (by decide) rfl rfl rfl
    (Or.inl (by decide))

/-! ### Claim C1: the inclusion window -/

/-- Claim C1: a contact appears in the report exactly when it has a
birthday whose candidate date — the birthday with the year replaced by
the current year, or the next year when that date precedes today — lies
in the inclusive window from today to the window end (today plus the
lookahead, 7 by default); records with no birthday never appear. -/
theorem upcoming_inclusion_iff_window (book : AddressBook) (today : Date)
    (n : Nat) (res : List Entry) (endDay : Date)
    (hres : get_upcoming_birthdays book today n = .ok res)
    (hend : timedeltaAdd today n = some endDay) (name : String) :
    (∃ ds, (name, ds) ∈ res) ↔
      ∃ r ∈ values book, r.name = name ∧ ∃ bd, r.birthday = some bd ∧
        dateLe today (claimCandidate today bd) ∧
        dateLe (claimCandidate today bd) endDay := by
  cases hcol : collectUpcoming today endDay (values book) with
  | error e =>
    rw [show get_upcoming_birthdays book today n = .error e from
      by simp only [get_upcoming_birthdays, hend, hcol]] at hres
    exact Except.noConfusion hres
  | ok l =>
    simp only [get_upcoming_birthdays, hend, hcol, Except.ok.injEq] at hres
    subst hres
    constructor
    · rintro ⟨ds, hmem⟩
      rw [List.mem_insertionSort] at hmem
      obtain ⟨r, hr, bd, hbd, c, hc, h1, h2, he⟩ :=
        (collect_mem_iff (values book) l hcol (name, ds)).mp hmem
      have hcc := candidateOf_eq_claim hc
      subst hcc
      refine ⟨r, hr, ?_, bd, hbd, h1, h2⟩
      exact (congrArg Prod.fst he).symm
    · rintro ⟨r, hr, hname, bd, hbd, h1, h2⟩
      obtain ⟨c, hc⟩ := collect_ok_candidate (values book) l hcol r hr bd hbd
      have hcc := candidateOf_eq_claim hc
      refine ⟨fmtYMD (congrShift c), ?_⟩
      rw [List.mem_insertionSort]
      apply (collect_mem_iff (values book) l hcol
        (name, fmtYMD (congrShift c))).mpr
      exact ⟨r, hr, bd, hbd, c, hc, by rw [hcc]; exact h1,
        by rw [hcc]; exact h2, by rw [hname]⟩

/-- Claim C1 witness: a June-15 birthday is in the 7-day window of
2024-06-10 and is reported under the contact's name. -/
theorem upcoming_inclusion_iff_window_witness :
    (∃ ds, (("Alice" : String), ds) ∈ ([("Alice", "2024.06.17")] : List Entry))
      ↔
    ∃ r ∈ values [("Alice", ⟨"Alice", [], some ⟨1990, 6, 15⟩⟩)],
      r.name = "Alice" ∧ ∃ bd, r.birthday = some bd ∧
        dateLe ⟨2024, 6, 10⟩ (claimCandidate ⟨2024, 6, 10⟩ bd) ∧
        dateLe (claimCandidate ⟨2024, 6, 10⟩ bd) ⟨2024, 6, 17⟩ :=
  upcoming_inclusion_iff_window
    [("Alice", ⟨"Alice", [], some ⟨1990, 6, 15⟩⟩)] ⟨2024, 6, 10⟩ 7
    [("Alice", "2024.06.17")] ⟨2024, 6, 17⟩ rfl rfl "Alice"

/-! ### Claim C2: the congratulation date -/

/-- Claim C2: every reported row is a contact's name paired with its
candidate date shifted by two days when it falls on a Saturday and one
day when it falls on a Sunday, rendered as `YYYY.MM.DD`. -/
theorem upcoming_congr_shift_format (book : AddressBook) (today : Date)
    (n : Nat) (res : List Entry)
    (hres : get_upcoming_birthdays book today n = .ok res) :
    ∀ e ∈ res, ∃ r ∈ values book, ∃ bd, r.birthday = some bd ∧
      e = (r.name, fmtYMD
        (if weekday (claimCandidate today bd) = 5 then
          addDays (claimCandidate today bd) 2
        else if weekday (claimCandidate today bd) = 6 then
          addDays (claimCandidate today bd) 1
        else claimCandidate today bd)) := by
  intro e he
  cases hadd : timedeltaAdd today n with
  | none =>
    rw [show get_upcoming_birthdays book today n = .error "date value out of range"
      from by simp only [get_upcoming_birthdays, hadd]] at hres
    exact Except.noConfusion hres
  | some endDay =>
    cases hcol : collectUpcoming today endDay (values book) with
    | error e2 =>
      rw [show get_upcoming_birthdays book today n = .error e2 from
        by simp only [get_upcoming_birthdays, hadd, hcol]] at hres
      exact Except.noConfusion hres
    | ok l =>
      simp only [get_upcoming_birthdays, hadd, hcol, Except.ok.injEq] at hres
      subst hres
      rw [List.mem_insertionSort] at he
      obtain ⟨r, hr, bd, hbd, c, hc, h1, h2, hee⟩ :=
        (collect_mem_iff (values book) l hcol e).mp he
      have hcc := candidateOf_eq_claim hc
      subst hcc
      exact ⟨r, hr, bd, hbd, hee⟩

/-- Claim C2 witness: the Saturday candidate 2024-06-15 is reported as
the following Monday, 2024.06.17. -/
theorem upcoming_congr_shift_format_witness :
    ∃ r ∈ values [("Alice", ⟨"Alice", [], some ⟨1990, 6, 15⟩⟩)],
      ∃ bd, r.birthday = some bd ∧
        (("Alice", "2024.06.17") : Entry) = (r.name, fmtYMD
          (if weekday (claimCandidate ⟨2024, 6, 10⟩ bd) = 5 then
            addDays (claimCandidate ⟨2024, 6, 10⟩ bd) 2
          else if weekday (claimCandidate ⟨2024, 6, 10⟩ bd) = 6 then
            addDays (claimCandidate ⟨2024, 6, 10⟩ bd) 1
          else claimCandidate ⟨2024, 6, 10⟩ bd)) :=
  upcoming_congr_shift_format
    [("Alice", ⟨"Alice", [], some ⟨1990, 6, 15⟩⟩)] ⟨2024, 6, 10⟩ 7
    [("Alice", "2024.06.17")] rfl ("Alice", "2024.06.17") (by decide)

/-! ### Claim C6: the output is sorted -/

lemma charListLtB_asymm : ∀ (l1 l2 : List Char),
    charListLtB l1 l2 = true → charListLtB l2 l1 = false := by
  intro l1
  induction l1 with
  | nil =>
    intro l2 h
    cases l2 with
    | nil => simp [charListLtB] at h
    | cons b bs => simp [charListLtB]
  | cons a as ih =>
    intro l2 h
    cases l2 with
    | nil => simp [charListLtB] at h
    | cons b bs =>
      simp only [charListLtB] at h ⊢
      by_cases h1 : a.toNat < b.toNat
      · rw [if_neg (by omega), if_pos h1]
      · rw [if_neg h1] at h
        by_cases h2 : b.toNat < a.toNat
        · rw [if_pos h2] at h
          exact absurd h (by simp)
        · rw [if_neg h2] at h
          rw [if_neg h2, if_neg h1]
          exact ih bs h

lemma charListLtB_negtrans : ∀ (l1 l2 l3 : List Char),
    charListLtB l2 l1 = false → charListLtB l3 l2 = false →
    charListLtB l3 l1 = false := by
  intro l1 l2 l3
  induction l1 generalizing l2 l3 with
  | nil =>
    intro h21 h32
    cases l3 with
    | nil => rfl
    | cons c cs => rfl
  | cons a as ih =>
    intro h21 h32
    cases l2 with
    | nil => exact absurd h21 (by simp [charListLtB])
    | cons b bs =>
      cases l3 with
      | nil => exact absurd h32 (by simp [charListLtB])
      | cons c cs =>
        simp only [charListLtB] at h21 h32 ⊢
        by_cases hba : b.toNat < a.toNat
        · rw [if_pos hba] at h21
          exact absurd h21 (by simp)
        · rw [if_neg hba] at h21
          by_cases hcb : c.toNat < b.toNat
          · rw [if_pos hcb] at h32
            exact absurd h32 (by simp)
          · rw [if_neg hcb] at h32
            by_cases hca : c.toNat < a.toNat
            · exact absurd hca (by omega)
            · rw [if_neg hca]
              by_cases hac : a.toNat < c.toNat
              · rw [if_pos hac]
              · rw [if_neg hac]
                by_cases hab : a.toNat < b.toNat
                · exact absurd (show c.toNat < b.toNat by omega) hcb
                · rw [if_neg hab] at h21
                  by_cases hbc : b.toNat < c.toNat
                  · exact absurd (show b.toNat < a.toNat by omega) hba
                  · rw [if_neg hbc] at h32
                    exact ih bs cs h21 h32

instance : IsTotal Entry entryLe := by
  constructor
  intro a b
  by_cases h : charListLtB a.2.data b.2.data = true
  · exact Or.inl (charListLtB_asymm _ _ h)
  · exact Or.inr (Bool.eq_false_iff.mpr h)

instance : IsTrans Entry entryLe := by
  constructor
  intro a b c h1 h2
  exact charListLtB_negtrans a.2.data b.2.data c.2.data h1 h2

/-- Claim C6: whatever the book's state and the lookahead, a returned
report is sorted non-decreasing by the congratulation-date string. -/
theorem upcoming_sorted (book : AddressBook) (today : Date) (n : Nat)
    (res : List Entry)
    (hres : get_upcoming_birthdays book today n = .ok res) :
    List.Sorted entryLe res := by
  cases hadd : timedeltaAdd today n with
  | none =>
    rw [show get_upcoming_birthdays book today n = .error "date value out of range"
      from by simp only [get_upcoming_birthdays, hadd]] at hres
    exact Except.noConfusion hres
  | some endDay =>
    cases hcol : collectUpcoming today endDay (values book) with
    | error e =>
      rw [show get_upcoming_birthdays book today n = .error e from
        by simp only [get_upcoming_birthdays, hadd, hcol]] at hres
      exact Except.noConfusion hres
    | ok l =>
      simp only [get_upcoming_birthdays, hadd, hcol, Except.ok.injEq] at hres
      subst hres
      exact List.sorted_insertionSort entryLe l

/-- Claim C6 witness: a two-row report comes out sorted by its date
strings. -/
theorem upcoming_sorted_witness :
    List.Sorted entryLe [("B", "2024.06.11"), ("A", "2024.06.17")] :=
  upcoming_sorted
    [("A", ⟨"A", [], some ⟨1990, 6, 16⟩⟩), ("B", ⟨"B", [], some ⟨1990, 6, 11⟩⟩)]
    ⟨2024, 6, 10⟩ 7 [("B", "2024.06.11"), ("A", "2024.06.17")] rfl

/-! ### Claim C7: Birthday parse/render round trip -/

lemma digitChar_toNat {k : Nat} (h : k < 10) :
    (Nat.digitChar k).toNat = 48 + k := by
  interval_cases k <;> decide

lemma isPyDigit_digitChar {k : Nat} (h : k < 10) :
    isPyDigit (Nat.digitChar k) = true := by
  unfold isPyDigit
  rw [digitChar_toNat h]
  simp only [Bool.and_eq_true, decide_eq_true_eq]
  omega

lemma charVal_digitChar {k : Nat} (h : k < 10) :
    charVal (Nat.digitChar k) = k := by
  unfold charVal
  rw [digitChar_toNat h]
  omega

lemma isPySpace_digitChar {k : Nat} (h : k < 10) :
    isPySpace (Nat.digitChar k) = false := by
  unfold isPySpace
  rw [digitChar_toNat h]
  simp only [Bool.or_eq_false_iff, beq_eq_false_iff_ne, ne_eq]
  omega

lemma fmt_chars_nospace (Y M D : Nat) :
    ∀ c ∈ pad2L D ++ '.' :: pad2L M ++ '.' :: pad4L Y,
      isPySpace c = false := by
  intro c hc
  have hsp : ∀ k : Nat, isPySpace (Nat.digitChar (k % 10)) = false :=
    fun k => isPySpace_digitChar (Nat.mod_lt _ (by decide))
  simp only [pad2L, pad4L, List.cons_append, List.nil_append, List.mem_cons,
    List.not_mem_nil, or_false] at hc
  rcases hc with rfl | rfl | rfl | rfl | rfl | rfl | rfl | rfl | rfl | rfl <;>
    first
      | exact hsp _
      | decide

lemma daysInMonth_le_31 (y m : Nat) : daysInMonth y m ≤ 31 := by
  unfold daysInMonth
  split_ifs <;> omega

lemma parseParts_pad (Y M D : Nat) (h1 : 1 ≤ Y) (h2 : Y ≤ 9999) (h3 : 1 ≤ M)
    (h4 : M ≤ 12) (h5 : 1 ≤ D) (h6 : D ≤ daysInMonth Y M) :
    parseParts [Nat.digitChar (D / 10 % 10), Nat.digitChar (D % 10)]
      [Nat.digitChar (M / 10 % 10), Nat.digitChar (M % 10)]
      [Nat.digitChar (Y / 1000 % 10), Nat.digitChar (Y / 100 % 10),
       Nat.digitChar (Y / 10 % 10), Nat.digitChar (Y % 10)]
      = some ⟨Y, M, D⟩ := by
  have hD31 : D ≤ 31 := le_trans h6 (daysInMonth_le_31 Y M)
  have hall : ∀ k : Nat, isPyDigit (Nat.digitChar (k % 10)) = true :=
    fun k => isPyDigit_digitChar (Nat.mod_lt _ (by decide))
  have hval : ∀ k : Nat, charVal (Nat.digitChar (k % 10)) = k % 10 :=
    fun k => charVal_digitChar (Nat.mod_lt _ (by decide))
  have hreadD : readNat [Nat.digitChar (D / 10 % 10), Nat.digitChar (D % 10)]
      = D := by
    simp only [readNat, List.foldl_cons, List.foldl_nil, hval]
    omega
  have hreadM : readNat [Nat.digitChar (M / 10 % 10), Nat.digitChar (M % 10)]
      = M := by
    simp only [readNat, List.foldl_cons, List.foldl_nil, hval]
    omega
  have hreadY : readNat [Nat.digitChar (Y / 1000 % 10),
      Nat.digitChar (Y / 100 % 10), Nat.digitChar (Y / 10 % 10),
      Nat.digitChar (Y % 10)] = Y := by
    simp only [readNat, List.foldl_cons, List.foldl_nil, hval]
    omega
  simp only [parseParts, hreadD, hreadM, hreadY]
  rw [if_pos (show ([Nat.digitChar (D / 10 % 10),
      Nat.digitChar (D % 10)].all isPyDigit &&
      [Nat.digitChar (M / 10 % 10), Nat.digitChar (M % 10)].all isPyDigit &&
      [Nat.digitChar (Y / 1000 % 10), Nat.digitChar (Y / 100 % 10),
       Nat.digitChar (Y / 10 % 10), Nat.digitChar (Y % 10)].all isPyDigit)
      = true from by simp [List.all_cons, List.all_nil, hall])]
  rw [if_pos ⟨h5, hD31, h3, h4⟩]
  unfold pyDateNew
  rw [if_pos ⟨h1, h2, h3, h4, h5, h6⟩]

/-- Claim C7: a text in canonical `DD.MM.YYYY` form denoting a valid
calendar date is accepted by `Birthday` and renders back to the same
text; a text the parser rejects makes construction fail with the fixed
message "Invalid date format. Use DD.MM.YYYY". -/
theorem birthday_roundtrip_spec (t : String) (d : Date) :
    (ValidDate d → t = fmtDMY d → Birthday_init t = .ok d) ∧
    (parseDMYData (stripList t.data) = none →
      Birthday_init t = .error "Invalid date format. Use DD.MM.YYYY") := by
  constructor
  · rintro hv rfl
    obtain ⟨Y, M, D⟩ := d
    unfold ValidDate at hv
    dsimp only at hv
    obtain ⟨h1, h2, h3, h4, h5, h6⟩ := hv
    unfold Birthday_init
    have hdata : (fmtDMY ⟨Y, M, D⟩).data
        = pad2L D ++ '.' :: pad2L M ++ '.' :: pad4L Y := rfl
    rw [hdata, stripList_eq_self (fmt_chars_nospace Y M D)]
    simp only [pad2L, pad4L, List.cons_append, List.nil_append]
    simp only [parseDMYData]
    rw [parseParts_pad Y M D h1 h2 h3 h4 h5 h6]
  · intro hnone
    simp only [Birthday_init, hnone]

/-- Claim C7 witness: "05.06.1990" is accepted, stored as 1990-06-05 and
renders back to "05.06.1990". -/
theorem birthday_roundtrip_spec_witness :
    Birthday_init "05.06.1990" = .ok ⟨1990, 6, 5⟩ :=
  (birthday_roundtrip_spec "05.06.1990" ⟨1990, 6, 5⟩).1 (by decide) (by decide)
